import Mathlib

set_option maxHeartbeats 4000000
set_option maxRecDepth 100000

/-!
Verification of the summarization pipeline of the ai-text-summarizer backend.

Shallow embedding of the algorithmic core found in
backend/utils/text_processor.py, backend/services/summarizer_service.py and
the result assembly of backend/routers/summarizer.py.

Modelling conventions:
* Python strings are lists of characters (ASCII model for the regex character
  classes and for upper/lower case conversion of the first character).
* The NLTK sentence tokenizer and the sentence-embedding model are external
  dependencies of the repository; the pipeline functions take them as
  parameters (a tokenizer of type Tok and an embedder of type Encode).  A
  small executable sentence splitter, modelled from the spec, is provided so
  that concrete instances can be evaluated.
* The generative transformer models are external as well; they appear as a
  parameter of type Gen returning Except, and abstractive summarization
  additionally returns the number of generator invocations, the observable
  that the spec's mock-engine call-count scenario refers to.
* Python floats are modelled as rationals.
-/

/-- Python strings, modelled as lists of characters. -/
abbrev Str := List Char

/-- Python whitespace, the regex class of space, tab, newline, vertical tab,
form feed and carriage return. -/
def isPySpace (c : Char) : Bool := c == ' ' || (9 ≤ c.toNat && c.toNat ≤ 13)

/-- Word characters, the regex word class restricted to ASCII. -/
def isWordChar (c : Char) : Bool := c.isAlphanum || c == '_'

/-- The punctuation characters kept by preprocess_text. -/
def isKeptPunct (c : Char) : Bool :=
  c == '.' || c == '!' || c == '?' || c == ',' || c == ';' || c == ':' ||
  c == '-' || c == '(' || c == ')'

/-- Characters preserved by the character-filtering step of preprocess_text. -/
def isAllowedChar (c : Char) : Bool := isWordChar c || isPySpace c || isKeptPunct c

/-- The punctuation in front of which whitespace is removed by
preprocess_text (period, exclamation mark, question mark, comma, semicolon,
colon). -/
def isStopPunct (c : Char) : Bool :=
  c == '.' || c == '!' || c == '?' || c == ',' || c == ';' || c == ':'

/-- First substitution of preprocess_text: collapse every whitespace run to a
single space.  A whitespace character followed by further whitespace is
dropped; the last character of each run becomes one space. -/
def collapseWs : Str → Str
  | [] => []
  | c :: cs =>
    if isPySpace c then
      if isPySpace (cs.headD 'a') then collapseWs cs else ' ' :: collapseWs cs
    else c :: collapseWs cs

/-- Second substitution of preprocess_text: drop every character outside the
allowed class. -/
def filterAllowed (t : Str) : Str := t.filter isAllowedChar

/-- Third substitution of preprocess_text: remove whitespace that precedes one
of the six stop punctuation marks.  A whitespace character is dropped exactly
when the next non-whitespace character is stop punctuation. -/
def fixPunctSpace : Str → Str
  | [] => []
  | c :: cs =>
    if isPySpace c && isStopPunct ((cs.dropWhile isPySpace).headD 'a') then
      fixPunctSpace cs
    else c :: fixPunctSpace cs

/-- ASCII lower/upper case table used to model the capitalization step. -/
def lowerUpperTable : List (Char × Char) :=
  [('a','A'), ('b','B'), ('c','C'), ('d','D'), ('e','E'), ('f','F'), ('g','G'),
   ('h','H'), ('i','I'), ('j','J'), ('k','K'), ('l','L'), ('m','M'), ('n','N'),
   ('o','O'), ('p','P'), ('q','Q'), ('r','R'), ('s','S'), ('t','T'), ('u','U'),
   ('v','V'), ('w','W'), ('x','X'), ('y','Y'), ('z','Z')]

/-- ASCII model of the Python lower-case test on one character. -/
def isLowerC (c : Char) : Bool := (lowerUpperTable.find? (fun p => p.1 == c)).isSome

/-- ASCII model of the Python upper-case conversion of one character. -/
def upChar (c : Char) : Char :=
  match lowerUpperTable.find? (fun p => p.1 == c) with
  | some p => p.2
  | none => c

/-- Capitalization step of preprocess_text: upper-case the first character
when it is a lower-case letter. -/
def capitalizeFirst : Str → Str
  | [] => []
  | c :: cs => if isLowerC c then upChar c :: cs else c :: cs

/-- Python strip: remove leading and trailing whitespace. -/
def pyStrip (t : Str) : Str :=
  ((t.dropWhile isPySpace).reverse.dropWhile isPySpace).reverse

/-- TextProcessor.preprocess_text: whitespace collapsing, character filtering,
punctuation spacing, capitalization of the first character, final strip. -/
def preprocess_text (text : Str) : Str :=
  pyStrip (capitalizeFirst (fixPunctSpace (filterAllowed (collapseWs text))))

/-- Python text.split() with no separator: whitespace-delimited words, with no
empty words.  The accumulator holds the current word reversed. -/
def pyWordsGo (cur : Str) : Str → List Str
  | [] => if cur.isEmpty then [] else [cur.reverse]
  | c :: cs =>
    if isPySpace c then
      if cur.isEmpty then pyWordsGo [] cs else cur.reverse :: pyWordsGo [] cs
    else pyWordsGo (c :: cur) cs

/-- Whitespace-delimited word list of a text, Python text.split(). -/
def pyWords (t : Str) : List Str := pyWordsGo [] t

/-- Python sep.join: concatenate the given strings with the separator between
consecutive elements. -/
def pyJoin (sep : Str) : List Str → Str
  | [] => []
  | [s] => s
  | s :: s2 :: tl => s ++ sep ++ pyJoin sep (s2 :: tl)

/-- Python text.split with the two-character separator of a period followed by
a space, as used by the hybrid composer to estimate a sentence count. -/
def splitDotSpace : Str → List Str
  | [] => [[]]
  | '.' :: ' ' :: rest => [] :: splitDotSpace rest
  | c :: rest =>
    match splitDotSpace rest with
    | [] => [[c]]
    | seg :: segs => (c :: seg) :: segs

/-- Modelled from the spec: the Segmenter's sentence splitting (contract A of
section 4.2, realized in the repository by the external nltk.sent_tokenize).
This executable stand-in cuts after a terminal period, exclamation mark or
question mark that is followed by whitespace, keeps the punctuation with the
sentence, and skips the separating whitespace.  The accumulator holds the
current sentence reversed. -/
def sentSplitGo (cur : Str) : Str → List Str
  | [] => if cur.isEmpty then [] else [cur.reverse]
  | c :: cs =>
    if cur.isEmpty && isPySpace c then sentSplitGo [] cs
    else if (c == '.' || c == '!' || c == '?') && isPySpace (cs.headD 'x') then
      (c :: cur).reverse :: sentSplitGo [] cs
    else sentSplitGo (c :: cur) cs

/-- Sentence splitting of a text, a stand-in for the external tokenizer. -/
def sentSplit (t : Str) : List Str := sentSplitGo [] t

/-- The loop of TextProcessor.chunk_text: greedily append whole sentences,
each followed by one space, to the current chunk while the length bound
permits; on overflow, close the stripped current chunk (when non-empty) and
start a new chunk with the overflowing sentence. -/
def chunkGo (maxLen : Nat) (cur : Str) : List Str → List Str
  | [] => if cur.isEmpty then [] else [pyStrip cur]
  | s :: tl =>
    if (cur ++ s).length ≤ maxLen then chunkGo maxLen (cur ++ s ++ [' ']) tl
    else if cur.isEmpty then chunkGo maxLen (s ++ [' ']) tl
    else pyStrip cur :: chunkGo maxLen (s ++ [' ']) tl

/-- Chunking of a sentence sequence with the given length bound. -/
def chunkSentences (sentences : List Str) (maxLen : Nat) : List Str :=
  chunkGo maxLen [] sentences

/-- A sentence tokenizer parameter, the external nltk.sent_tokenize. -/
abbrev Tok := Str → List Str

/-- TextProcessor.chunk_text: tokenize into sentences, then chunk them. -/
def chunk_text (tok : Tok) (text : Str) (maxLen : Nat) : List Str :=
  chunkSentences (tok text) maxLen

/-- A sentence embedder parameter, the external SentenceTransformer encode. -/
abbrev Encode := List Str → List (List ℚ)

/-- Dot product of two embedding vectors. -/
def dotProd (u v : List ℚ) : ℚ := (List.zipWith (fun a b => a * b) u v).sum

/-- Row sums of the pairwise dot-product similarity matrix: each sentence's
raw score is the sum of its similarities to every sentence, itself included. -/
def rawScores (e : List (List ℚ)) : List ℚ :=
  e.map (fun ei => (e.map (fun ej => dotProd ei ej)).sum)

/-- Maximum of a list of rationals, the numpy max of a non-empty array. -/
def npMax (l : List ℚ) : ℚ := l.foldl max (l.headD 0)

/-- SummarizerService._calculate_sentence_scores: raw scores are the row sums
of the similarity matrix, divided by their maximum when that maximum is
positive and returned unnormalized otherwise. -/
def calculateSentenceScores (e : List (List ℚ)) : List ℚ :=
  if 0 < npMax (rawScores e) then
    (rawScores e).map (fun s => s / npMax (rawScores e))
  else rawScores e

/-- Summarization methods of models/summarizer.py. -/
inductive SMethod | extractive | abstractive | hybrid
  deriving DecidableEq

/-- Summarization models of models/summarizer.py. -/
inductive SModel | bart | t5 | pegasus | openai | cohere
  deriving DecidableEq

/-- SummarizationRequest of models/summarizer.py (the language field is
irrelevant to the pipeline and omitted). -/
structure SummarizationRequest where
  text : Str
  method : SMethod
  model : SModel
  max_sentences : Nat
  max_length : Nat
  min_length : Nat
  deriving DecidableEq

/-- SummarizationResult of models/summarizer.py.  The compression field is
named compression_ratio in the source. -/
structure SummarizationResult where
  summary : Str
  method : SMethod
  model : SModel
  original_length : Nat
  summary_length : Nat
  compression : ℚ
  deriving DecidableEq

/-- Score of sentence index i, with default 0 out of range. -/
def scoreAt (scores : List ℚ) (i : Nat) : ℚ := scores.getD i 0

/-- The linear order realizing the Python stable descending sort of sentence
indices by score: higher score first, ties resolved toward the lower index. -/
def descRel (scores : List ℚ) (i j : Nat) : Prop :=
  scoreAt scores j < scoreAt scores i ∨ (scoreAt scores i = scoreAt scores j ∧ i ≤ j)

instance (scores : List ℚ) : DecidableRel (descRel scores) := fun i j => by
  unfold descRel
  infer_instance

instance (scores : List ℚ) : IsTotal Nat (descRel scores) := by
  constructor
  intro i j
  rcases lt_trichotomy (scoreAt scores i) (scoreAt scores j) with h | h | h
  · exact Or.inr (Or.inl h)
  · rcases Nat.le_total i j with hij | hij
    · exact Or.inl (Or.inr ⟨h, hij⟩)
    · exact Or.inr (Or.inr ⟨h.symm, hij⟩)
  · exact Or.inl (Or.inl h)

instance (scores : List ℚ) : IsTrans Nat (descRel scores) := by
  constructor
  intro a b c hab hbc
  rcases hab with h1 | ⟨h1, h1le⟩ <;> rcases hbc with h2 | ⟨h2, h2le⟩
  · exact Or.inl (h2.trans h1)
  · exact Or.inl (h2 ▸ h1)
  · exact Or.inl (h1 ▸ h2)
  · exact Or.inr ⟨h1.trans h2, h1le.trans h2le⟩

/-- The index selection of _extractive_summarize: stable-sort all sentence
indices by descending score, keep the first k, then re-sort those ascending to
restore document order. -/
def topIndices (scores : List ℚ) (k : Nat) : List Nat :=
  List.insertionSort (fun i j => i ≤ j)
    ((List.insertionSort (descRel scores) (List.range scores.length)).take k)

/-- Generation failures of the underlying engine, carrying a message. -/
abbrev GenError := Str

/-- A generative engine parameter: the external transformer pipeline, given a
text and the advisory maximum and minimum word bounds. -/
abbrev Gen := Str → Nat → Nat → Except GenError Str

/-- SummarizerService._extractive_summarize: if the sentence count is within
the requested budget return the text unchanged, otherwise score sentences,
keep the top max_sentences indices in document order and join the selected
sentences with a period and a space. -/
def extractiveSummarize (tok : Tok) (encode : Encode) (text : Str)
    (req : SummarizationRequest) : Str :=
  if (tok text).length ≤ req.max_sentences then text
  else
    pyJoin ['.', ' ']
      ((topIndices (calculateSentenceScores (encode (tok text))) req.max_sentences).map
        (fun i => (tok text).getD i []))

/-- The per-chunk generation loop of _abstractive_summarize: run the engine on
each chunk in order, failing at the first failure. -/
def genChunks (gen : Gen) (ml mnl : Nat) : List Str → Except GenError (List Str)
  | [] => Except.ok []
  | c :: cs =>
    match gen c ml mnl with
    | Except.error e => Except.error e
    | Except.ok s =>
      match genChunks gen ml mnl cs with
      | Except.error e => Except.error e
      | Except.ok ss => Except.ok (s :: ss)

/-- The fixed chunk threshold of _abstractive_summarize. -/
def maxChunkLength : Nat := 1024

/-- SummarizerService._abstractive_summarize.  For texts longer than the chunk
threshold: chunk, generate per chunk, join the partial summaries with one
space, and run one more generation pass when the combination is still longer
than max_length.  Otherwise generate once on the whole text.  The second
component counts the generator invocations. -/
def abstractiveSummarize (gen : Gen) (tok : Tok) (text : Str)
    (req : SummarizationRequest) : Except GenError (Str × Nat) :=
  if maxChunkLength < text.length then
    match genChunks gen req.max_length req.min_length (chunk_text tok text maxChunkLength) with
    | Except.error e => Except.error e
    | Except.ok summaries =>
      if req.max_length < (pyJoin [' '] summaries).length then
        match gen (pyJoin [' '] summaries) req.max_length req.min_length with
        | Except.error e => Except.error e
        | Except.ok s =>
          Except.ok (s, (chunk_text tok text maxChunkLength).length + 1)
      else Except.ok (pyJoin [' '] summaries, (chunk_text tok text maxChunkLength).length)
  else
    match gen text req.max_length req.min_length with
    | Except.error e => Except.error e
    | Except.ok s => Except.ok (s, 1)

/-- The expanded extraction request built by _hybrid_summarize: double the
sentence budget, capped by the count of period-space separated segments of the
text, and double the length cap. -/
def hybridExpandedRequest (text : Str) (req : SummarizationRequest) : SummarizationRequest :=
  { text := text
    method := SMethod.extractive
    model := req.model
    max_sentences := min (req.max_sentences * 2) (splitDotSpace text).length
    max_length := req.max_length * 2
    min_length := req.min_length }

/-- The generation request built by _hybrid_summarize for the second stage,
carrying the original unexpanded bounds. -/
def hybridGenerateRequest (es : Str) (req : SummarizationRequest) : SummarizationRequest :=
  { text := es
    method := SMethod.abstractive
    model := req.model
    max_sentences := req.max_sentences
    max_length := req.max_length
    min_length := req.min_length }

/-- The EXTRACT stage of _hybrid_summarize: extractive summarization under the
expanded request. -/
def hybridExtractStage (tok : Tok) (encode : Encode) (text : Str)
    (req : SummarizationRequest) : Str :=
  extractiveSummarize tok encode text (hybridExpandedRequest text req)

/-- The GENERATE stage of _hybrid_summarize: abstractive summarization of the
extractive output under the original bounds. -/
def hybridGenerateStage (gen : Gen) (tok : Tok) (encode : Encode) (text : Str)
    (req : SummarizationRequest) : Except GenError (Str × Nat) :=
  abstractiveSummarize gen tok (hybridExtractStage tok encode text req)
    (hybridGenerateRequest (hybridExtractStage tok encode text req) req)

/-- SummarizerService._hybrid_summarize: EXTRACT then GENERATE; when the
generative stage fails, fall back to extractive summarization with the
original request. -/
def hybridSummarize (gen : Gen) (tok : Tok) (encode : Encode) (text : Str)
    (req : SummarizationRequest) : Str :=
  match hybridGenerateStage gen tok encode text req with
  | Except.ok sn => sn.1
  | Except.error _ => extractiveSummarize tok encode text req

/-- The result assembly of summarize_text: word counts of the request text and
of the summary and the guarded compression ratio, which is zero when the
original word count is zero. -/
def mkResult (req : SummarizationRequest) (summary : Str) : SummarizationResult :=
  { summary := summary
    method := req.method
    model := req.model
    original_length := (pyWords req.text).length
    summary_length := (pyWords summary).length
    compression :=
      if 0 < (pyWords req.text).length then
        ((pyWords summary).length : ℚ) / ((pyWords req.text).length : ℚ)
      else 0 }

/-- SummarizerService.summarize_text: preprocess, dispatch on the method, and
assemble the result metrics. -/
def summarize_text (gen : Gen) (tok : Tok) (encode : Encode)
    (req : SummarizationRequest) : Except GenError SummarizationResult :=
  match req.method with
  | SMethod.extractive =>
    Except.ok (mkResult req (extractiveSummarize tok encode (preprocess_text req.text) req))
  | SMethod.abstractive =>
    match abstractiveSummarize gen tok (preprocess_text req.text) req with
    | Except.error e => Except.error e
    | Except.ok sn => Except.ok (mkResult req sn.1)
  | SMethod.hybrid =>
    Except.ok (mkResult req (hybridSummarize gen tok encode (preprocess_text req.text) req))

/-- The router's input validation: a request is accepted when its stripped
text has at least 50 characters. -/
def routerValidates (text : Str) : Bool := 50 ≤ (pyStrip text).length

/-- The router's unguarded compression computation, a division of the summary
word count by the request word count. -/
def routerCompression (text summary : Str) : ℚ :=
  ((pyWords summary).length : ℚ) / ((pyWords text).length : ℚ)

/-! ### Concrete instances used by witnesses and counterexamples -/

/-- An embedder stand-in mapping each sentence to the one-dimensional vector
holding its length. -/
def encodeLen : Encode := fun ss => ss.map (fun t => [(t.length : ℚ)])

/-- A generative engine that always fails. -/
def genFailAll : Gen := fun _ _ _ => Except.error ['f']

/-- A generative engine that always returns a one-character summary. -/
def genConstX : Gen := fun _ _ _ => Except.ok ['x']

/-- A degenerate tokenizer treating the whole text as one sentence. -/
def tokWhole : Tok := fun t => [t]

/-! ### C4: parameters of the hybrid EXTRACT and GENERATE stages -/

/-- C4 (amended): the hybrid EXTRACT stage runs the extractive selector with
the expanded sentence target min(2 * max_sentences, number of period-space
separated segments of the text) and the expanded cap 2 * max_length, keeping
the original min_length, and the GENERATE stage request carries the original
unexpanded max_length and min_length. -/
theorem hybrid_expanded_params (tok : Tok) (encode : Encode) (text es : Str)
    (req : SummarizationRequest) :
    (hybridExpandedRequest text req).max_sentences
        = min (req.max_sentences * 2) (splitDotSpace text).length
    ∧ (hybridExpandedRequest text req).max_length = req.max_length * 2
    ∧ (hybridExpandedRequest text req).min_length = req.min_length
    ∧ hybridExtractStage tok encode text req
        = extractiveSummarize tok encode text (hybridExpandedRequest text req)
    ∧ (hybridGenerateRequest es req).max_length = req.max_length
    ∧ (hybridGenerateRequest es req).min_length = req.min_length :=
  ⟨rfl, rfl, rfl, rfl, rfl, rfl⟩

/-- Text used as the C4 counterexample: five sentences with exclamation-mark
boundaries, which the tokenizer splits into five sentences while the
period-space split leaves a single segment. -/
def exTextBang : Str := ['A', '!', ' ', 'B', '!', ' ', 'C', '!', ' ', 'D', '!', ' ', 'E', '!']

/-- Request used by the C4 counterexample. -/
def exReqBang : SummarizationRequest :=
  ⟨exTextBang, SMethod.hybrid, SModel.bart, 2, 100, 10⟩

/-- C4 counterexample: the claim computes the expanded sentence target from
the sentence count of the text, but the code computes it from the count of
period-space separated segments; on a five-sentence text whose sentences end
with exclamation marks the code's target is 1 while the claimed formula gives
min(4, 5) = 4. -/
theorem hybrid_sentence_target_counterexample :
    (hybridExpandedRequest exTextBang exReqBang).max_sentences = 1
    ∧ min (exReqBang.max_sentences * 2) (sentSplit exTextBang).length = 4
    ∧ (hybridExpandedRequest exTextBang exReqBang).max_sentences
        ≠ min (exReqBang.max_sentences * 2) (sentSplit exTextBang).length := by
  refine ⟨?_, ?_, ?_⟩ <;> decide

/-! ### C9: guarded compression ratio -/

/-- Helper: a list produced by pyWordsGo with a non-empty current word is
never empty. -/
theorem pyWordsGo_ne_nil (rest : Str) :
    ∀ cur : Str, cur ≠ [] → pyWordsGo cur rest ≠ [] := by
  induction rest with
  | nil =>
    intro cur hc
    simp [pyWordsGo, hc]
  | cons c cs ih =>
    intro cur hc
    by_cases hsp : isPySpace c
    · have hne : cur.isEmpty = false := by simpa using hc
      simp [pyWordsGo, hsp, hne]
    · simpa [pyWordsGo, hsp] using ih (c :: cur) (by simp)

/-- Helper: a text containing a non-whitespace character has at least one
word. -/
theorem pyWords_ne_nil (t : Str) (h : t.dropWhile isPySpace ≠ []) :
    pyWords t ≠ [] := by
  induction t with
  | nil => simp at h
  | cons c cs ih =>
    by_cases hsp : isPySpace c
    · have h2 : cs.dropWhile isPySpace ≠ [] := by
        simpa [List.dropWhile_cons, hsp] using h
      simpa [pyWords, pyWordsGo, hsp] using ih h2
    · simpa [pyWords, pyWordsGo, hsp] using pyWordsGo_ne_nil cs [c] (by simp)

/-- Helper: a text accepted by the router's 50-character validation has a
positive word count. -/
theorem router_words_pos (t : Str) (h : routerValidates t = true) :
    (pyWords t).length ≠ 0 := by
  have h50 : 50 ≤ (pyStrip t).length := by simpa [routerValidates] using h
  have hdw : t.dropWhile isPySpace ≠ [] := by
    intro hnil
    rw [pyStrip, hnil] at h50
    simp at h50
  have := pyWords_ne_nil t hdw
  simpa [List.length_eq_zero] using this

/-- C9: the compression ratio of every assembled result equals the summary
word count divided by the original word count, is zero when the original word
count is zero, and the router's unguarded division never has a zero
denominator because validated texts have at least one word. -/
theorem compression_ratio_guarded (req : SummarizationRequest) (summary : Str) :
    ((mkResult req summary).compression
      = if (mkResult req summary).original_length = 0 then 0
        else ((mkResult req summary).summary_length : ℚ)
              / ((mkResult req summary).original_length : ℚ))
    ∧ ((mkResult req summary).original_length = 0 → (mkResult req summary).compression = 0)
    ∧ (∀ t : Str, routerValidates t = true → (pyWords t).length ≠ 0) := by
  refine ⟨?_, ?_, fun t ht => router_words_pos t ht⟩
  · by_cases h : (pyWords req.text).length = 0
    · simp [mkResult, h]
    · have hpos : 0 < (pyWords req.text).length := Nat.pos_of_ne_zero h
      simp [mkResult, h, hpos]
  · intro h
    have h0 : (pyWords req.text).length = 0 := h
    simp [mkResult, h0]

/-- Decidable equality of Except values, used to evaluate witnesses. -/
instance {ε : Type u} {α : Type v} [DecidableEq ε] [DecidableEq α] :
    DecidableEq (Except ε α) := fun a b =>
  match a, b with
  | Except.ok x, Except.ok y =>
    if h : x = y then Decidable.isTrue (by rw [h])
    else Decidable.isFalse (fun hc => h (Except.ok.inj hc))
  | Except.error x, Except.error y =>
    if h : x = y then Decidable.isTrue (by rw [h])
    else Decidable.isFalse (fun hc => h (Except.error.inj hc))
  | Except.ok _, Except.error _ => Decidable.isFalse (fun hc => Except.noConfusion hc)
  | Except.error _, Except.ok _ => Decidable.isFalse (fun hc => Except.noConfusion hc)

/-- Witness for C9: a sixty-character validated text has a positive word
count, so the router division is well defined there. -/
theorem compression_ratio_guarded_witness :
    routerValidates (List.replicate 60 'a') = true
    ∧ (pyWords (List.replicate 60 'a')).length ≠ 0 := by
  refine ⟨by decide, ?_⟩
  exact (compression_ratio_guarded
    ⟨[], SMethod.extractive, SModel.bart, 5, 100, 10⟩ []).2.2
    (List.replicate 60 'a') (by decide)

/-! ### C10: the extractive path ignores the word-length bounds -/

/-- Helper: extractive summarization depends on the request only through its
max_sentences field. -/
theorem extractive_congr (tok : Tok) (encode : Encode) (text : Str)
    (r1 r2 : SummarizationRequest) (h : r1.max_sentences = r2.max_sentences) :
    extractiveSummarize tok encode text r1 = extractiveSummarize tok encode text r2 := by
  simp only [extractiveSummarize, h]

/-- C10: two extractive requests agreeing on text and max_sentences produce
the same summary, whatever their max_length and min_length and whatever
generative engine is configured. -/
theorem extractive_independent_of_bounds (tok : Tok) (encode : Encode)
    (gen1 gen2 : Gen) (r1 r2 : SummarizationRequest)
    (h1 : r1.method = SMethod.extractive) (h2 : r2.method = SMethod.extractive)
    (ht : r1.text = r2.text) (hs : r1.max_sentences = r2.max_sentences) :
    (summarize_text gen1 tok encode r1).map (fun r => r.summary)
      = (summarize_text gen2 tok encode r2).map (fun r => r.summary) := by
  simp only [summarize_text, h1, h2, Except.map, mkResult, ht]
  rw [extractive_congr tok encode (preprocess_text r2.text) r1 r2 hs]

/-- Witness requests for C10: same text and sentence budget, different word
bounds. -/
def reqLenA : SummarizationRequest :=
  ⟨['H', 'i', '.', ' ', 'Y', 'o', '.'], SMethod.extractive, SModel.bart, 5, 100, 10⟩

/-- Second witness request for C10, differing only in the word bounds. -/
def reqLenB : SummarizationRequest :=
  ⟨['H', 'i', '.', ' ', 'Y', 'o', '.'], SMethod.extractive, SModel.bart, 5, 300, 77⟩

/-- Witness for C10 at concrete requests differing only in the bounds. -/
theorem extractive_independent_of_bounds_witness :
    reqLenA.method = SMethod.extractive
    ∧ reqLenB.method = SMethod.extractive
    ∧ reqLenA.text = reqLenB.text
    ∧ reqLenA.max_sentences = reqLenB.max_sentences
    ∧ (summarize_text genFailAll sentSplit encodeLen reqLenA).map (fun r => r.summary)
        = (summarize_text genConstX sentSplit encodeLen reqLenB).map (fun r => r.summary) :=
  ⟨by decide, by decide, by decide, by decide,
    extractive_independent_of_bounds sentSplit encodeLen genFailAll genConstX
      reqLenA reqLenB (by decide) (by decide) (by decide) (by decide)⟩

/-! ### C5: small inputs pass through the extractive selector unchanged -/

/-- C5: when the tokenized sentence count of the normalized text is within
max_sentences, the extractive selector returns the normalized text itself and
the pipeline summary is exactly the normalized text. -/
theorem extractive_small_input_identity (gen : Gen) (tok : Tok) (encode : Encode)
    (req : SummarizationRequest)
    (hm : req.method = SMethod.extractive)
    (hc : (tok (preprocess_text req.text)).length ≤ req.max_sentences) :
    extractiveSummarize tok encode (preprocess_text req.text) req = preprocess_text req.text
    ∧ (summarize_text gen tok encode req).map (fun r => r.summary)
        = Except.ok (preprocess_text req.text) := by
  have h1 : extractiveSummarize tok encode (preprocess_text req.text) req
      = preprocess_text req.text := by
    simp only [extractiveSummarize, if_pos hc]
  exact ⟨h1, by simp only [summarize_text, hm, Except.map, mkResult, h1]⟩

/-- Request used by the C5 and C1 witnesses: a two-sentence text. -/
def reqTwoSent : SummarizationRequest :=
  ⟨['H', 'i', '.', ' ', 'Y', 'o', '.'], SMethod.extractive, SModel.bart, 5, 100, 10⟩

/-- Witness for C5 at a concrete two-sentence request. -/
theorem extractive_small_input_identity_witness :
    reqTwoSent.method = SMethod.extractive
    ∧ (sentSplit (preprocess_text reqTwoSent.text)).length ≤ reqTwoSent.max_sentences
    ∧ (extractiveSummarize sentSplit encodeLen (preprocess_text reqTwoSent.text) reqTwoSent
          = preprocess_text reqTwoSent.text
      ∧ (summarize_text genFailAll sentSplit encodeLen reqTwoSent).map (fun r => r.summary)
          = Except.ok (preprocess_text reqTwoSent.text)) :=
  ⟨by decide, by decide,
    extractive_small_input_identity genFailAll sentSplit encodeLen reqTwoSent
      (by decide) (by decide)⟩

/-! ### C1: hybrid fallback on generation failure -/

/-- C1: when the GENERATE stage of the hybrid composer fails, the composer
returns the extractive summary computed with the original unexpanded request,
and the pipeline still returns an ok result whose summary is exactly that
fallback output. -/
theorem hybrid_generate_failure_fallback (gen : Gen) (tok : Tok) (encode : Encode)
    (req : SummarizationRequest) (e : GenError)
    (hm : req.method = SMethod.hybrid)
    (hf : hybridGenerateStage gen tok encode (preprocess_text req.text) req
            = Except.error e) :
    hybridSummarize gen tok encode (preprocess_text req.text) req
        = extractiveSummarize tok encode (preprocess_text req.text) req
    ∧ (summarize_text gen tok encode req).map (fun r => r.summary)
        = Except.ok (extractiveSummarize tok encode (preprocess_text req.text) req) := by
  have h1 : hybridSummarize gen tok encode (preprocess_text req.text) req
      = extractiveSummarize tok encode (preprocess_text req.text) req := by
    unfold hybridSummarize
    rw [hf]
  exact ⟨h1, by simp only [summarize_text, hm, Except.map, mkResult, h1]⟩

/-- Hybrid request used by the C1 witness. -/
def reqHyb : SummarizationRequest :=
  ⟨['H', 'i', '.', ' ', 'Y', 'o', '.'], SMethod.hybrid, SModel.bart, 1, 100, 10⟩

/-- Witness for C1: with an engine that always fails, the hybrid pipeline
still answers, with the original-parameter extractive output. -/
theorem hybrid_generate_failure_fallback_witness :
    reqHyb.method = SMethod.hybrid
    ∧ hybridGenerateStage genFailAll sentSplit encodeLen
        (preprocess_text reqHyb.text) reqHyb = Except.error ['f']
    ∧ (hybridSummarize genFailAll sentSplit encodeLen (preprocess_text reqHyb.text) reqHyb
          = extractiveSummarize sentSplit encodeLen (preprocess_text reqHyb.text) reqHyb
      ∧ (summarize_text genFailAll sentSplit encodeLen reqHyb).map (fun r => r.summary)
          = Except.ok (extractiveSummarize sentSplit encodeLen
              (preprocess_text reqHyb.text) reqHyb)) :=
  ⟨by decide, by decide,
    hybrid_generate_failure_fallback genFailAll sentSplit encodeLen reqHyb ['f']
      (by decide) (by decide)⟩

/-! ### C2: chunked abstractive summarization -/

/-- Helper: a successful per-chunk generation run yields exactly one partial
summary per chunk. -/
theorem genChunks_ok_length (gen : Gen) (ml mnl : Nat) :
    ∀ (cs rs : List Str), genChunks gen ml mnl cs = Except.ok rs →
      rs.length = cs.length := by
  intro cs
  induction cs with
  | nil =>
    intro rs h
    simp only [genChunks] at h
    injection h with h2
    simp [← h2]
  | cons c cs ih =>
    intro rs h
    simp only [genChunks] at h
    rcases hg : gen c ml mnl with e | s <;> rw [hg] at h
    · exact absurd h (by simp)
    · rcases hr : genChunks gen ml mnl cs with e2 | ss <;> rw [hr] at h
      · exact absurd h (by simp)
      · injection h with h2
        rw [← h2]
        simp [ih ss hr]

/-- C2: for texts no longer than the 1024-character chunk threshold the
engine is invoked exactly once on the whole text; for longer texts the text
is chunked sentence-aligned, the engine runs once per chunk, the partial
summaries are joined with a single space, and one further engine pass runs on
the joined result exactly when its length exceeds max_length. -/
theorem abstractive_chunk_behavior (gen : Gen) (tok : Tok)
    (req : SummarizationRequest) (text : Str) :
    (text.length ≤ maxChunkLength →
      abstractiveSummarize gen tok text req
        = match gen text req.max_length req.min_length with
          | Except.error e => Except.error e
          | Except.ok s => Except.ok (s, 1))
    ∧ (∀ rs : List Str, maxChunkLength < text.length →
        genChunks gen req.max_length req.min_length (chunk_text tok text maxChunkLength)
          = Except.ok rs →
        rs.length = (chunk_text tok text maxChunkLength).length
        ∧ abstractiveSummarize gen tok text req
            = (if req.max_length < (pyJoin [' '] rs).length then
                match gen (pyJoin [' '] rs) req.max_length req.min_length with
                | Except.error e => Except.error e
                | Except.ok s =>
                  Except.ok (s, (chunk_text tok text maxChunkLength).length + 1)
              else Except.ok (pyJoin [' '] rs,
                      (chunk_text tok text maxChunkLength).length))) := by
  constructor
  · intro h
    simp only [abstractiveSummarize, if_neg (not_lt.mpr h)]
  · intro rs h hg
    refine ⟨genChunks_ok_length gen req.max_length req.min_length _ rs hg, ?_⟩
    simp only [abstractiveSummarize, if_pos h, hg]

/-- Request used by the C2 witness. -/
def reqAbs : SummarizationRequest := ⟨[], SMethod.abstractive, SModel.bart, 5, 100, 10⟩

/-- A text one character over the chunk threshold. -/
def textBig : Str := List.replicate 1025 'a'

/-- Witness for C2, exercising both the short-text branch and the chunked
branch at concrete inputs. -/
theorem abstractive_chunk_behavior_witness :
    (['h', 'i'].length ≤ maxChunkLength
      ∧ abstractiveSummarize genConstX tokWhole ['h', 'i'] reqAbs
          = match genConstX ['h', 'i'] reqAbs.max_length reqAbs.min_length with
            | Except.error e => Except.error e
            | Except.ok s => Except.ok (s, 1))
    ∧ (maxChunkLength < textBig.length
      ∧ genChunks genConstX reqAbs.max_length reqAbs.min_length
            (chunk_text tokWhole textBig maxChunkLength) = Except.ok [['x']]
      ∧ ([['x']].length = (chunk_text tokWhole textBig maxChunkLength).length
        ∧ abstractiveSummarize genConstX tokWhole textBig reqAbs
            = (if reqAbs.max_length < (pyJoin [' '] [['x']]).length then
                match genConstX (pyJoin [' '] [['x']]) reqAbs.max_length reqAbs.min_length with
                | Except.error e => Except.error e
                | Except.ok s =>
                  Except.ok (s, (chunk_text tokWhole textBig maxChunkLength).length + 1)
              else Except.ok (pyJoin [' '] [['x']],
                      (chunk_text tokWhole textBig maxChunkLength).length)))) := by
  have h1 : maxChunkLength < textBig.length := by decide
  have h2 : genChunks genConstX reqAbs.max_length reqAbs.min_length
      (chunk_text tokWhole textBig maxChunkLength) = Except.ok [['x']] := by rfl
  exact ⟨⟨by decide,
      (abstractive_chunk_behavior genConstX tokWhole reqAbs ['h', 'i']).1 (by decide)⟩,
    h1, h2,
    (abstractive_chunk_behavior genConstX tokWhole reqAbs textBig).2 [['x']] h1 h2⟩

/-! ### C8: sentence score normalization -/

/-- Helper: the seed of a fold by max bounds the fold from below. -/
theorem foldl_max_le_self (l : List ℚ) (a : ℚ) : a ≤ l.foldl max a := by
  induction l generalizing a with
  | nil => simp
  | cons x xs ih => exact le_trans (le_max_left a x) (ih (max a x))

/-- Helper: a fold by max bounds every list element from above. -/
theorem le_foldl_max (l : List ℚ) : ∀ (a x : ℚ), x ∈ l → x ≤ l.foldl max a := by
  induction l with
  | nil => intro a x hx; simp at hx
  | cons y ys ih =>
    intro a x hx
    rcases List.mem_cons.mp hx with rfl | h
    · exact le_trans (le_max_right a x) (foldl_max_le_self ys (max a x))
    · exact ih (max a y) x h

/-- Helper: a fold by max returns its seed or a list element. -/
theorem foldl_max_mem (l : List ℚ) : ∀ a : ℚ, l.foldl max a = a ∨ l.foldl max a ∈ l := by
  induction l with
  | nil => intro a; left; rfl
  | cons x xs ih =>
    intro a
    rcases ih (max a x) with h | h
    · rcases max_cases a x with ⟨h1, _⟩ | ⟨h1, _⟩
      · left
        rw [List.foldl_cons, h, h1]
      · right
        rw [List.foldl_cons, h, h1]
        exact List.mem_cons_self x xs
    · right
      exact List.mem_cons_of_mem x h

/-- Helper: the numpy maximum of a non-empty list is one of its elements. -/
theorem npMax_mem (l : List ℚ) (h : l ≠ []) : npMax l ∈ l := by
  rcases foldl_max_mem l (l.headD 0) with h1 | h1
  · rw [npMax, h1]
    cases l with
    | nil => exact absurd rfl h
    | cons x xs => exact List.mem_cons_self x xs
  · exact h1

/-- Helper: the numpy maximum bounds every element of the list. -/
theorem le_npMax (l : List ℚ) (x : ℚ) (hx : x ∈ l) : x ≤ npMax l :=
  le_foldl_max l (l.headD 0) x hx

/-- Helper: the scorer returns one score per embedding vector. -/
theorem calculateSentenceScores_length (e : List (List ℚ)) :
    (calculateSentenceScores e).length = e.length := by
  unfold calculateSentenceScores rawScores
  split <;> simp

/-- C8 (amended): for a non-empty embedding list the scorer returns one score
per sentence; when the maximum row sum is positive the scores are the row
sums divided by that maximum, so every score is at most 1 and the score 1 is
attained, and when additionally every raw row sum is positive all scores lie
in (0, 1]; when the maximum is not positive the raw row sums are returned
unnormalized. -/
theorem sentence_scores_shape (e : List (List ℚ)) (he : e ≠ []) :
    (calculateSentenceScores e).length = e.length
    ∧ (0 < npMax (rawScores e) →
        (∀ x ∈ calculateSentenceScores e, x ≤ 1) ∧ 1 ∈ calculateSentenceScores e)
    ∧ ((∀ x ∈ rawScores e, 0 < x) →
        ∀ x ∈ calculateSentenceScores e, 0 < x ∧ x ≤ 1)
    ∧ (¬ 0 < npMax (rawScores e) → calculateSentenceScores e = rawScores e) := by
  have hraw : rawScores e ≠ [] := by
    unfold rawScores
    simpa using he
  refine ⟨calculateSentenceScores_length e, ?_, ?_, ?_⟩
  · intro hpos
    constructor
    · intro x hx
      rw [calculateSentenceScores, if_pos hpos] at hx
      rcases List.mem_map.mp hx with ⟨r, hr, rfl⟩
      exact (div_le_one hpos).mpr (le_npMax _ r hr)
    · rw [calculateSentenceScores, if_pos hpos]
      exact List.mem_map.mpr ⟨npMax (rawScores e), npMax_mem _ hraw,
        div_self (ne_of_gt hpos)⟩
  · intro hall x hx
    have hpos : 0 < npMax (rawScores e) := hall _ (npMax_mem _ hraw)
    rw [calculateSentenceScores, if_pos hpos] at hx
    rcases List.mem_map.mp hx with ⟨r, hr, rfl⟩
    exact ⟨div_pos (hall r hr) hpos, (div_le_one hpos).mpr (le_npMax _ r hr)⟩
  · intro hneg
    rw [calculateSentenceScores, if_neg hneg]

/-- C8 counterexample: with the embedding vectors (2) and (-1) the raw row
sums are 2 and -1, the maximum 2 is positive, and normalization yields the
score -1/2, which does not lie in (0, 1]. -/
theorem sentence_scores_counterexample :
    calculateSentenceScores [[(2 : ℚ)], [(-1 : ℚ)]] = [1, -(1 : ℚ)/2]
    ∧ ∃ x ∈ calculateSentenceScores [[(2 : ℚ)], [(-1 : ℚ)]], ¬(0 < x ∧ x ≤ 1) := by
  have h : calculateSentenceScores [[(2 : ℚ)], [(-1 : ℚ)]] = [1, -(1 : ℚ)/2] := by
    norm_num [calculateSentenceScores, rawScores, npMax, dotProd, max_def]
  refine ⟨h, -(1 : ℚ)/2, ?_, ?_⟩
  · rw [h]
    simp
  · norm_num

/-- Witness for C8 at the non-empty embedding list of two unit vectors. -/
theorem sentence_scores_shape_witness :
    ([[(1 : ℚ)], [(1 : ℚ)]] ≠ ([] : List (List ℚ)))
    ∧ ((calculateSentenceScores [[(1 : ℚ)], [(1 : ℚ)]]).length
          = [[(1 : ℚ)], [(1 : ℚ)]].length
      ∧ (0 < npMax (rawScores [[(1 : ℚ)], [(1 : ℚ)]]) →
          (∀ x ∈ calculateSentenceScores [[(1 : ℚ)], [(1 : ℚ)]], x ≤ 1)
          ∧ 1 ∈ calculateSentenceScores [[(1 : ℚ)], [(1 : ℚ)]])
      ∧ ((∀ x ∈ rawScores [[(1 : ℚ)], [(1 : ℚ)]], 0 < x) →
          ∀ x ∈ calculateSentenceScores [[(1 : ℚ)], [(1 : ℚ)]], 0 < x ∧ x ≤ 1)
      ∧ (¬ 0 < npMax (rawScores [[(1 : ℚ)], [(1 : ℚ)]]) →
          calculateSentenceScores [[(1 : ℚ)], [(1 : ℚ)]]
            = rawScores [[(1 : ℚ)], [(1 : ℚ)]])) :=
  ⟨by decide, sentence_scores_shape [[(1 : ℚ)], [(1 : ℚ)]] (by decide)⟩

/-! ### C3: extractive selection of the top-scoring sentences -/

/-- Helper: the index list returned by topIndices has exactly k members, is
strictly increasing, stays below the score count, and dominates every
non-selected index, with ties resolved toward the lower index. -/
theorem topIndices_spec (scores : List ℚ) (k : Nat) (hk : k < scores.length) :
    (topIndices scores k).length = k
    ∧ List.Pairwise (fun i j => i < j) (topIndices scores k)
    ∧ (∀ i ∈ topIndices scores k, i < scores.length)
    ∧ (∀ i ∈ topIndices scores k, ∀ j, j < scores.length → j ∉ topIndices scores k →
        scoreAt scores j < scoreAt scores i
        ∨ (scoreAt scores j = scoreAt scores i ∧ i < j)) := by
  set n := scores.length with hn
  set dsorted := List.insertionSort (descRel scores) (List.range n) with hd
  have hperm : dsorted.Perm (List.range n) := List.perm_insertionSort _ _
  have hsorted : List.Sorted (descRel scores) dsorted := List.sorted_insertionSort _ _
  have hnodup : dsorted.Nodup := (hperm.nodup_iff).mpr (List.nodup_range n)
  have htperm : (topIndices scores k).Perm (dsorted.take k) := List.perm_insertionSort _ _
  have htnodup : (dsorted.take k).Nodup := hnodup.sublist (List.take_sublist k dsorted)
  have hI_nodup : (topIndices scores k).Nodup := (htperm.nodup_iff).mpr htnodup
  have hsortedI : List.Sorted (fun i j => i ≤ j) (topIndices scores k) :=
    List.sorted_insertionSort _ _
  have hslen : dsorted.length = n := hperm.length_eq.trans (List.length_range n)
  have hmemt : ∀ i ∈ topIndices scores k, i ∈ dsorted.take k :=
    fun i hi => htperm.mem_iff.mp hi
  refine ⟨?_, ?_, ?_, ?_⟩
  · rw [htperm.length_eq, List.length_take, hslen]
    omega
  · exact (hsortedI.and hI_nodup).imp (fun h => lt_of_le_of_ne h.1 h.2)
  · intro i hi
    have h1 : i ∈ dsorted := List.mem_of_mem_take (hmemt i hi)
    exact List.mem_range.mp (hperm.mem_iff.mp h1)
  · intro i hi j hj hjn
    have hitop : i ∈ dsorted.take k := hmemt i hi
    have hjs : j ∈ dsorted := hperm.mem_iff.mpr (List.mem_range.mpr hj)
    have hsplit : dsorted.take k ++ dsorted.drop k = dsorted := List.take_append_drop k dsorted
    have hjdrop : j ∈ dsorted.drop k := by
      have h2 : j ∈ dsorted.take k ++ dsorted.drop k := by rw [hsplit]; exact hjs
      rcases List.mem_append.mp h2 with h3 | h3
      · exact absurd (htperm.mem_iff.mpr h3) hjn
      · exact h3
    have hpw : List.Pairwise (descRel scores) (dsorted.take k ++ dsorted.drop k) := by
      rw [hsplit]; exact hsorted
    have hrel : descRel scores i j := (List.pairwise_append.mp hpw).2.2 i hitop j hjdrop
    have hnd2 : (dsorted.take k ++ dsorted.drop k).Nodup := by rw [hsplit]; exact hnodup
    have hne : i ≠ j := by
      intro hij
      exact (List.nodup_append.mp hnd2).2.2 hitop (by rw [hij]; exact hjdrop)
    rcases hrel with h | ⟨heq, hle⟩
    · exact Or.inl h
    · exact Or.inr ⟨heq.symm, lt_of_le_of_ne hle hne⟩

/-- C3 (amended): when the sentence count exceeds max_sentences, the
extractive summary is exactly the max_sentences highest-scoring sentences,
ties broken toward the lower original index, re-sorted into ascending index
order and joined with a period and a space; no terminal period is appended
beyond the join, so the result ends with the final selected sentence as
produced by the tokenizer. -/
theorem extractive_selection (tok : Tok) (encode : Encode) (text : Str)
    (req : SummarizationRequest)
    (hn : req.max_sentences < (tok text).length)
    (he : (encode (tok text)).length = (tok text).length) :
    ∃ I : List Nat,
      I.length = req.max_sentences
      ∧ List.Pairwise (fun i j => i < j) I
      ∧ (∀ i ∈ I, i < (tok text).length)
      ∧ (∀ i ∈ I, ∀ j, j < (tok text).length → j ∉ I →
          scoreAt (calculateSentenceScores (encode (tok text))) j
              < scoreAt (calculateSentenceScores (encode (tok text))) i
          ∨ (scoreAt (calculateSentenceScores (encode (tok text))) j
              = scoreAt (calculateSentenceScores (encode (tok text))) i ∧ i < j))
      ∧ extractiveSummarize tok encode text req
          = pyJoin ['.', ' '] (I.map (fun i => (tok text).getD i [])) := by
  have hslen : (calculateSentenceScores (encode (tok text))).length = (tok text).length :=
    (calculateSentenceScores_length _).trans he
  have hk : req.max_sentences < (calculateSentenceScores (encode (tok text))).length := by
    rw [hslen]; exact hn
  obtain ⟨h1, h2, h3, h4⟩ :=
    topIndices_spec (calculateSentenceScores (encode (tok text))) req.max_sentences hk
  refine ⟨topIndices (calculateSentenceScores (encode (tok text))) req.max_sentences,
    h1, h2, ?_, ?_, ?_⟩
  · intro i hi
    have := h3 i hi
    rwa [hslen] at this
  · intro i hi j hj hjn
    exact h4 i hi j (by rw [hslen]; exact hj) hjn
  · simp only [extractiveSummarize, if_neg (not_le.mpr hn)]

/-- Helper: the tokenizer stand-in splits the exclamation-mark text into its
five sentences. -/
theorem sentSplit_exTextBang : sentSplit exTextBang
    = [['A', '!'], ['B', '!'], ['C', '!'], ['D', '!'], ['E', '!']] := by decide

/-- Helper: the length embedder maps the five two-character sentences to the
constant vector (2). -/
theorem encodeLen_exTextBang :
    encodeLen [['A', '!'], ['B', '!'], ['C', '!'], ['D', '!'], ['E', '!']]
      = [[(2 : ℚ)], [(2 : ℚ)], [(2 : ℚ)], [(2 : ℚ)], [(2 : ℚ)]] := by
  norm_num [encodeLen]

/-- Helper: five identical embedding vectors score uniformly to one. -/
theorem scores_exTextBang :
    calculateSentenceScores [[(2 : ℚ)], [(2 : ℚ)], [(2 : ℚ)], [(2 : ℚ)], [(2 : ℚ)]]
      = [1, 1, 1, 1, 1] := by
  norm_num [calculateSentenceScores, rawScores, dotProd, npMax, max_def]

/-- Helper: with uniform scores the two top indices are the two lowest. -/
theorem topIndices_uniform : topIndices [1, 1, 1, 1, 1] 2 = [0, 1] := by
  norm_num [topIndices, List.insertionSort, List.orderedInsert, descRel, scoreAt]

/-- C3 counterexample: on a five-sentence text whose sentences end with
exclamation marks, selecting two sentences joins them with a period and a
space but the result ends with an exclamation mark, not with a terminal
period. -/
theorem extractive_no_terminal_period :
    extractiveSummarize sentSplit encodeLen exTextBang exReqBang
      = ['A', '!', '.', ' ', 'B', '!']
    ∧ (extractiveSummarize sentSplit encodeLen exTextBang exReqBang).getLast? ≠ some '.' := by
  have hfull : extractiveSummarize sentSplit encodeLen exTextBang exReqBang
      = ['A', '!', '.', ' ', 'B', '!'] := by
    simp only [extractiveSummarize, sentSplit_exTextBang, exReqBang]
    rw [if_neg (by decide)]
    rw [encodeLen_exTextBang, scores_exTextBang, topIndices_uniform]
    decide
  refine ⟨hfull, ?_⟩
  rw [hfull]
  decide

/-- Extractive request on the exclamation-mark text, used by the C3 witness. -/
def reqSel : SummarizationRequest :=
  ⟨exTextBang, SMethod.extractive, SModel.bart, 2, 100, 10⟩

/-- Witness for C3 at a concrete five-sentence text and a budget of two. -/
theorem extractive_selection_witness :
    reqSel.max_sentences < (sentSplit exTextBang).length
    ∧ (encodeLen (sentSplit exTextBang)).length = (sentSplit exTextBang).length
    ∧ ∃ I : List Nat,
        I.length = reqSel.max_sentences
        ∧ List.Pairwise (fun i j => i < j) I
        ∧ (∀ i ∈ I, i < (sentSplit exTextBang).length)
        ∧ (∀ i ∈ I, ∀ j, j < (sentSplit exTextBang).length → j ∉ I →
            scoreAt (calculateSentenceScores (encodeLen (sentSplit exTextBang))) j
                < scoreAt (calculateSentenceScores (encodeLen (sentSplit exTextBang))) i
            ∨ (scoreAt (calculateSentenceScores (encodeLen (sentSplit exTextBang))) j
                = scoreAt (calculateSentenceScores (encodeLen (sentSplit exTextBang))) i
                ∧ i < j))
        ∧ extractiveSummarize sentSplit encodeLen exTextBang reqSel
            = pyJoin ['.', ' '] (I.map (fun i => (sentSplit exTextBang).getD i [])) :=
  ⟨by decide, by decide,
    extractive_selection sentSplit encodeLen exTextBang reqSel (by decide) (by decide)⟩

/-! ### C6: chunking reconstruction, non-emptiness and length bounds -/

/-- Well-formed sentences, as the external tokenizer produces them: non-empty
and without leading or trailing whitespace. -/
def wfSentence (s : Str) : Bool :=
  !s.isEmpty && !isPySpace (s.headD 'a') && !isPySpace (s.getLastD 'a')

/-- Helper: unpacking the well-formedness of a sentence. -/
theorem wfSentence_spec (s : Str) (h : wfSentence s = true) :
    s ≠ [] ∧ isPySpace (s.headD 'a') = false ∧ isPySpace (s.getLastD 'a') = false := by
  simp only [wfSentence, Bool.and_eq_true, Bool.not_eq_true'] at h
  refine ⟨?_, h.1.2, h.2⟩
  intro hnil
  rw [hnil] at h
  simp at h

/-- Helper: the default head of a reversed list is its default last element. -/
theorem headD_reverse (l : Str) (d : Char) : l.reverse.headD d = l.getLastD d := by
  induction l using List.reverseRecOn with
  | nil => rfl
  | append_singleton xs x ih => simp [List.reverse_append, List.getLastD_concat]

/-- Helper: dropWhile does nothing when the default head fails the test. -/
theorem dropWhile_id_of_headD (p : Char → Bool) (l : Str) (d : Char)
    (h : p (l.headD d) = false) : l.dropWhile p = l := by
  cases l with
  | nil => rfl
  | cons c cs => simp only [List.headD_cons] at h; simp [List.dropWhile_cons, h]

/-- Helper: the default head of an append is that of its non-empty left part. -/
theorem headD_append_left (x y : Str) (d : Char) (h : x ≠ []) :
    (x ++ y).headD d = x.headD d := by
  cases x with
  | nil => exact absurd rfl h
  | cons c cs => rfl

/-- Helper: the default last of an append is that of its non-empty right
part. -/
theorem getLastD_append_right (x : Str) :
    ∀ (y : Str) (d : Char), y ≠ [] → (x ++ y).getLastD d = y.getLastD d := by
  induction x with
  | nil => intro y d hy; rfl
  | cons a xs ih =>
    intro y d hy
    rw [List.cons_append, List.getLastD_cons, ih y a hy]
    cases y with
    | nil => exact absurd rfl hy
    | cons b l => rw [List.getLastD_cons, List.getLastD_cons]

/-- Helper: stripping a string that has a non-whitespace head and last
character followed by one space removes exactly that space. -/
theorem pyStrip_append_space (x : Str) (hne : x ≠ [])
    (hh : isPySpace (x.headD 'a') = false)
    (hl : isPySpace (x.getLastD 'a') = false) :
    pyStrip (x ++ [' ']) = x := by
  have h1 : (x ++ [' ']).dropWhile isPySpace = x ++ [' '] := by
    apply dropWhile_id_of_headD
    rw [headD_append_left x [' '] 'a' hne]
    exact hh
  have h2 : (x ++ [' ']).reverse = ' ' :: x.reverse := by
    simp [List.reverse_append]
  have h3 : x.reverse.dropWhile isPySpace = x.reverse := by
    apply dropWhile_id_of_headD
    rw [headD_reverse]
    exact hl
  rw [pyStrip, h1, h2, List.dropWhile_cons]
  simp only [show isPySpace ' ' = true from rfl, if_true, h3, List.reverse_reverse]

/-- Helper: joining a non-empty list prepends the first element before the
separator. -/
theorem pyJoin_cons (sep : Str) (a : Str) (l : List Str) (h : l ≠ []) :
    pyJoin sep (a :: l) = a ++ sep ++ pyJoin sep l := by
  cases l with
  | nil => exact absurd rfl h
  | cons b t => rfl

/-- Helper: a space-join of non-empty well-formed sentences is non-empty and
has non-whitespace first and last characters. -/
theorem pyJoin_sp_wf (g : List Str) (hg : g ≠ [])
    (hwf : ∀ s ∈ g, wfSentence s = true) :
    pyJoin [' '] g ≠ []
    ∧ isPySpace ((pyJoin [' '] g).headD 'a') = false
    ∧ isPySpace ((pyJoin [' '] g).getLastD 'a') = false := by
  induction g with
  | nil => exact absurd rfl hg
  | cons s g ih =>
    cases g with
    | nil =>
      have := wfSentence_spec s (hwf s (by simp))
      exact ⟨this.1, this.2.1, this.2.2⟩
    | cons s2 tl =>
      have hs := wfSentence_spec s (hwf s (by simp))
      have hrest := ih (by simp) (fun x hx => hwf x (List.mem_cons_of_mem s hx))
      rw [pyJoin_cons [' '] s (s2 :: tl) (by simp)]
      refine ⟨by simp, ?_, ?_⟩
      · rw [List.append_assoc, headD_append_left s ([' '] ++ pyJoin [' '] (s2 :: tl)) 'a' hs.1]
        exact hs.2.1
      · rw [List.append_assoc, getLastD_append_right s ([' '] ++ pyJoin [' '] (s2 :: tl)) 'a'
          (by simp)]
        rw [getLastD_append_right [' '] (pyJoin [' '] (s2 :: tl)) 'a' hrest.1]
        exact hrest.2.2

/-- Helper: a space-join distributes over an append of non-empty groups. -/
theorem pyJoin_sp_append (g : List Str) :
    ∀ h : List Str, g ≠ [] → h ≠ [] →
      pyJoin [' '] (g ++ h) = pyJoin [' '] g ++ ' ' :: pyJoin [' '] h := by
  induction g with
  | nil => intro h hg hh; exact absurd rfl hg
  | cons s g ih =>
    intro h hg hh
    cases g with
    | nil =>
      rw [List.singleton_append, pyJoin_cons [' '] s h hh]
      simp [pyJoin]
    | cons s2 tl =>
      rw [List.cons_append, pyJoin_cons [' '] s ((s2 :: tl) ++ h) (by simp),
        pyJoin_cons [' '] s (s2 :: tl) (by simp), ih h (by simp) hh]
      simp [List.append_assoc]

/-- The current chunk corresponding to an accumulated group of sentences:
empty for no sentences, otherwise their space-join followed by the pending
space. -/
def curOf (g : List Str) : Str :=
  if g.isEmpty then [] else pyJoin [' '] g ++ [' ']

/-- Helper: the accumulated chunk is empty exactly for the empty group. -/
theorem curOf_isEmpty (g : List Str) : (curOf g).isEmpty = g.isEmpty := by
  cases g with
  | nil => rfl
  | cons s tl =>
    have : curOf (s :: tl) = pyJoin [' '] (s :: tl) ++ [' '] := by
      simp [curOf]
    rw [this]
    simp

/-- Helper: appending one sentence to the group extends the accumulated chunk
by that sentence and one space. -/
theorem curOf_append (g : List Str) (s : Str) :
    curOf (g ++ [s]) = curOf g ++ s ++ [' '] := by
  cases g with
  | nil => simp [curOf, pyJoin]
  | cons a tl =>
    have h1 : curOf ((a :: tl) ++ [s]) = pyJoin [' '] ((a :: tl) ++ [s]) ++ [' '] := by
      simp [curOf]
    have h2 : curOf (a :: tl) = pyJoin [' '] (a :: tl) ++ [' '] := by
      simp [curOf]
    rw [h1, h2, pyJoin_sp_append (a :: tl) [s] (by simp) (by simp)]
    simp [pyJoin, List.append_assoc]

/-- Helper: stripping the accumulated chunk of a non-empty well-formed group
recovers the space-join of the group. -/
theorem pyStrip_curOf (g : List Str) (hg : g ≠ [])
    (hwf : ∀ s ∈ g, wfSentence s = true) :
    pyStrip (curOf g) = pyJoin [' '] g := by
  obtain ⟨h1, h2, h3⟩ := pyJoin_sp_wf g hg hwf
  have : curOf g = pyJoin [' '] g ++ [' '] := by
    cases g with
    | nil => exact absurd rfl hg
    | cons a tl => simp [curOf]
  rw [this, pyStrip_append_space (pyJoin [' '] g) h1 h2 h3]

/-- Helper: the chunking loop emits at least one chunk when the current chunk
is non-empty. -/
theorem chunkGo_ne_nil (maxLen : Nat) :
    ∀ (rest : List Str) (cur : Str), cur ≠ [] → chunkGo maxLen cur rest ≠ [] := by
  intro rest
  induction rest with
  | nil =>
    intro cur hc
    have : cur.isEmpty = false := by simpa using hc
    simp [chunkGo, this]
  | cons s tl ih =>
    intro cur hc
    have hce : cur.isEmpty = false := by simpa using hc
    simp only [chunkGo, hce]
    split
    · exact ih (cur ++ s ++ [' ']) (by simp)
    · simp

/-- Helper (C6, reconstruction): joining the emitted chunks with single
spaces equals joining the accumulated group and the remaining sentences. -/
theorem chunkGo_join (maxLen : Nat) :
    ∀ (rest g : List Str), (∀ s ∈ g ++ rest, wfSentence s = true) →
      pyJoin [' '] (chunkGo maxLen (curOf g) rest) = pyJoin [' '] (g ++ rest) := by
  intro rest
  induction rest with
  | nil =>
    intro g hwf
    by_cases hg : g = []
    · subst hg
      rfl
    · have hce : (curOf g).isEmpty = false := by
        rw [curOf_isEmpty]
        simpa using hg
      simp only [chunkGo, hce, if_false]
      rw [pyStrip_curOf g hg (fun s hs => hwf s (by simpa using hs)), List.append_nil]
      rfl
  | cons s tl ih =>
    intro g hwf
    have hwfs : wfSentence s = true := hwf s (by simp)
    have hwf2 : ∀ x ∈ (g ++ [s]) ++ tl, wfSentence x = true := by
      intro x hx
      apply hwf
      simp only [List.mem_append, List.mem_cons, List.mem_singleton] at hx ⊢
      tauto
    have hwf3 : ∀ x ∈ ([s] : List Str) ++ tl, wfSentence x = true := by
      intro x hx
      apply hwf
      simp only [List.mem_append, List.mem_cons, List.mem_singleton] at hx ⊢
      tauto
    simp only [chunkGo]
    split
    · rw [show (curOf g ++ s ++ [' ']) = curOf (g ++ [s]) from (curOf_append g s).symm]
      rw [ih (g ++ [s]) hwf2]
      rw [List.append_assoc, List.singleton_append]
    · split
      · rename_i hce
        have hg : g = [] := by
          have := curOf_isEmpty g
          rw [hce] at this
          simpa using this.symm
        subst hg
        rw [show (s ++ [' ']) = curOf [s] by simp [curOf, pyJoin]]
        rw [ih [s] hwf3]
        rfl
      · rename_i hnle hce
        have hg : g ≠ [] := by
          intro hgn
          subst hgn
          simp [curOf] at hce
        have hwfg : ∀ x ∈ g, wfSentence x = true := by
          intro x hx
          exact hwf x (by simp [hx])
        have hchne : chunkGo maxLen (s ++ [' ']) tl ≠ [] :=
          chunkGo_ne_nil maxLen tl (s ++ [' ']) (by simp)
        rw [pyJoin_cons [' '] (pyStrip (curOf g)) (chunkGo maxLen (s ++ [' ']) tl) hchne]
        rw [pyStrip_curOf g hg hwfg]
        rw [show (s ++ [' ']) = curOf [s] by simp [curOf, pyJoin]]
        rw [ih [s] hwf3]
        rw [pyJoin_sp_append g (s :: tl) hg (by simp)]
        simp [List.append_assoc]

/-- Helper (C6, non-emptiness): every chunk the loop emits from well-formed
sentences is non-empty. -/
theorem chunkGo_emits_nonempty (maxLen : Nat) :
    ∀ (rest g : List Str), (∀ s ∈ g ++ rest, wfSentence s = true) →
      ∀ ch ∈ chunkGo maxLen (curOf g) rest, ch ≠ [] := by
  intro rest
  induction rest with
  | nil =>
    intro g hwf ch hch
    by_cases hg : g = []
    · subst hg
      simp [chunkGo, curOf] at hch
    · have hce : (curOf g).isEmpty = false := by
        rw [curOf_isEmpty]
        simpa using hg
      simp [chunkGo, hce] at hch
      subst hch
      rw [pyStrip_curOf g hg (fun s hs => hwf s (by simpa using hs))]
      exact (pyJoin_sp_wf g hg (fun s hs => hwf s (by simpa using hs))).1
  | cons s tl ih =>
    intro g hwf ch hch
    have hwf2 : ∀ x ∈ (g ++ [s]) ++ tl, wfSentence x = true := by
      intro x hx
      apply hwf
      simp only [List.mem_append, List.mem_cons, List.mem_singleton] at hx ⊢
      tauto
    have hwf3 : ∀ x ∈ ([s] : List Str) ++ tl, wfSentence x = true := by
      intro x hx
      apply hwf
      simp only [List.mem_append, List.mem_cons, List.mem_singleton] at hx ⊢
      tauto
    simp only [chunkGo] at hch
    split at hch
    · rw [show (curOf g ++ s ++ [' ']) = curOf (g ++ [s])
          from (curOf_append g s).symm] at hch
      exact ih (g ++ [s]) hwf2 ch hch
    · split at hch
      · rw [show (s ++ [' ']) = curOf [s] by simp [curOf, pyJoin]] at hch
        exact ih [s] hwf3 ch hch
      · rename_i hnle hce
        have hg : g ≠ [] := by
          intro hgn
          subst hgn
          simp [curOf] at hce
        rcases List.mem_cons.mp hch with rfl | hch2
        · rw [pyStrip_curOf g hg (fun x hx => hwf x (by simp [hx]))]
          exact (pyJoin_sp_wf g hg (fun x hx => hwf x (by simp [hx]))).1
        · rw [show (s ++ [' ']) = curOf [s] by simp [curOf, pyJoin]] at hch2
          exact ih [s] hwf3 ch hch2

/-- Helper (C6, length bound): every emitted chunk respects the bound except
a chunk consisting of a single oversized sentence of the document. -/
theorem chunkGo_length_bound (maxLen : Nat) (sents0 : List Str) :
    ∀ (rest g : List Str), (∀ s ∈ g ++ rest, wfSentence s = true) →
      (∀ s ∈ g ++ rest, s ∈ sents0) →
      (g.length = 1 ∨ (pyJoin [' '] g).length ≤ maxLen) →
      ∀ ch ∈ chunkGo maxLen (curOf g) rest,
        ch.length ≤ maxLen ∨ (ch ∈ sents0 ∧ maxLen < ch.length) := by
  intro rest
  induction rest with
  | nil =>
    intro g hwf hsub hbound ch hch
    by_cases hg : g = []
    · subst hg
      simp [chunkGo, curOf] at hch
    · have hce : (curOf g).isEmpty = false := by
        rw [curOf_isEmpty]
        simpa using hg
      simp [chunkGo, hce] at hch
      subst hch
      rw [pyStrip_curOf g hg (fun x hx => hwf x (by simpa using hx))]
      rcases hbound with h1 | h1
      · obtain ⟨s0, rfl⟩ := List.length_eq_one.mp h1
        by_cases hlen : (pyJoin [' '] [s0]).length ≤ maxLen
        · exact Or.inl hlen
        · refine Or.inr ⟨?_, not_le.mp hlen⟩
          have : pyJoin [' '] [s0] = s0 := rfl
          rw [this]
          exact hsub s0 (by simp)
      · exact Or.inl h1
  | cons s tl ih =>
    intro g hwf hsub hbound ch hch
    have hwf2 : ∀ x ∈ (g ++ [s]) ++ tl, wfSentence x = true := by
      intro x hx
      apply hwf
      simp only [List.mem_append, List.mem_cons, List.mem_singleton] at hx ⊢
      tauto
    have hwf3 : ∀ x ∈ ([s] : List Str) ++ tl, wfSentence x = true := by
      intro x hx
      apply hwf
      simp only [List.mem_append, List.mem_cons, List.mem_singleton] at hx ⊢
      tauto
    have hsub2 : ∀ x ∈ (g ++ [s]) ++ tl, x ∈ sents0 := by
      intro x hx
      apply hsub
      simp only [List.mem_append, List.mem_cons, List.mem_singleton] at hx ⊢
      tauto
    have hsub3 : ∀ x ∈ ([s] : List Str) ++ tl, x ∈ sents0 := by
      intro x hx
      apply hsub
      simp only [List.mem_append, List.mem_cons, List.mem_singleton] at hx ⊢
      tauto
    simp only [chunkGo] at hch
    split at hch
    · rename_i hfit
      rw [show (curOf g ++ s ++ [' ']) = curOf (g ++ [s])
          from (curOf_append g s).symm] at hch
      refine ih (g ++ [s]) hwf2 hsub2 (Or.inr ?_) ch hch
      by_cases hg : g = []
      · subst hg
        simpa [curOf, pyJoin] using hfit
      · rw [pyJoin_sp_append g [s] hg (by simp),
          show pyJoin [' '] [s] = s from rfl]
        have hcg : curOf g = pyJoin [' '] g ++ [' '] := by
          cases g with
          | nil => exact absurd rfl hg
          | cons a tlg => simp [curOf]
        rw [hcg] at hfit
        simp only [List.length_append, List.length_cons, List.length_nil] at hfit ⊢
        omega
    · split at hch
      · rw [show (s ++ [' ']) = curOf [s] by simp [curOf, pyJoin]] at hch
        exact ih [s] hwf3 hsub3 (Or.inl rfl) ch hch
      · rename_i hnle hce
        have hg : g ≠ [] := by
          intro hgn
          subst hgn
          simp [curOf] at hce
        rcases List.mem_cons.mp hch with rfl | hch2
        · rw [pyStrip_curOf g hg (fun x hx => hwf x (by simp [hx]))]
          rcases hbound with h1 | h1
          · obtain ⟨s0, rfl⟩ := List.length_eq_one.mp h1
            by_cases hlen : (pyJoin [' '] [s0]).length ≤ maxLen
            · exact Or.inl hlen
            · refine Or.inr ⟨?_, not_le.mp hlen⟩
              have : pyJoin [' '] [s0] = s0 := rfl
              rw [this]
              exact hsub s0 (by simp)
          · exact Or.inl h1
        · rw [show (s ++ [' ']) = curOf [s] by simp [curOf, pyJoin]] at hch2
          exact ih [s] hwf3 hsub3 (Or.inl rfl) ch hch2

/-- C6: for every text whose tokenized sentences are well formed (non-empty,
no edge whitespace, as the external tokenizer guarantees) and every positive
length bound, joining the chunks of chunk_text with single spaces reproduces
the space-join of all sentences in order, no chunk is empty, and every chunk
respects the bound unless it is a single document sentence that alone exceeds
it, in which case that sentence occupies its own oversized chunk. -/
theorem chunking_properties (tok : Tok) (text : Str) (maxLen : Nat)
    (_hpos : 0 < maxLen)
    (hwf : ∀ s ∈ tok text, wfSentence s = true) :
    pyJoin [' '] (chunk_text tok text maxLen) = pyJoin [' '] (tok text)
    ∧ (∀ ch ∈ chunk_text tok text maxLen, ch ≠ [])
    ∧ (∀ ch ∈ chunk_text tok text maxLen,
        ch.length ≤ maxLen ∨ (ch ∈ tok text ∧ maxLen < ch.length)) := by
  refine ⟨?_, ?_, ?_⟩
  · have := chunkGo_join maxLen (tok text) [] (by simpa using hwf)
    simpa [chunk_text, chunkSentences, curOf] using this
  · have := chunkGo_emits_nonempty maxLen (tok text) [] (by simpa using hwf)
    simpa [chunk_text, chunkSentences, curOf] using this
  · have := chunkGo_length_bound maxLen (tok text) (tok text) []
      (by simpa using hwf) (by simp) (Or.inr (by simp [pyJoin]))
    simpa [chunk_text, chunkSentences, curOf] using this

/-- Witness for C6 at a concrete five-sentence text and the bound 8. -/
theorem chunking_properties_witness :
    0 < 8
    ∧ (∀ s ∈ sentSplit exTextBang, wfSentence s = true)
    ∧ (pyJoin [' '] (chunk_text sentSplit exTextBang 8) = pyJoin [' '] (sentSplit exTextBang)
      ∧ (∀ ch ∈ chunk_text sentSplit exTextBang 8, ch ≠ [])
      ∧ (∀ ch ∈ chunk_text sentSplit exTextBang 8,
          ch.length ≤ 8 ∨ (ch ∈ sentSplit exTextBang ∧ 8 < ch.length))) :=
  ⟨by decide, by decide,
    chunking_properties sentSplit exTextBang 8 (by decide) (by decide)⟩

/-! ### C7: idempotence of the text normalizer -/

/-- Characters that can appear in normalizer output: allowed, and any
whitespace is the plain space. -/
def goodChar (c : Char) : Bool := isAllowedChar c && (!isPySpace c || c == ' ')

/-- Adjacent pairs the normalizer output never contains: whitespace followed
by whitespace, and whitespace followed by stop punctuation. -/
def okPair (a b : Char) : Bool := !(isPySpace a && (isPySpace b || isStopPunct b))

/-- No adjacent bad pairs anywhere in the string. -/
def noBadPairs : Str → Bool
  | [] => true
  | [_] => true
  | a :: b :: t => okPair a b && noBadPairs (b :: t)

/-- No two adjacent whitespace characters anywhere in the string. -/
def noSpacePair : Str → Bool
  | [] => true
  | [_] => true
  | a :: b :: t => !(isPySpace a && isPySpace b) && noSpacePair (b :: t)

/-- Helper: good characters are allowed characters. -/
theorem goodChar_allowed (c : Char) (h : goodChar c = true) :
    isAllowedChar c = true := by
  simp only [goodChar, Bool.and_eq_true] at h
  exact h.1

/-- Helper: a good whitespace character is the plain space. -/
theorem goodChar_space (c : Char) (h : goodChar c = true)
    (hs : isPySpace c = true) : c = ' ' := by
  simp only [goodChar, Bool.and_eq_true, Bool.or_eq_true, Bool.not_eq_true', hs] at h
  rcases h.2 with h2 | h2
  · exact absurd h2 (by decide)
  · simpa using h2

/-- Helper: a pair starting with non-whitespace is never bad. -/
theorem okPair_of_nonspace (a b : Char) (h : isPySpace a = false) :
    okPair a b = true := by
  simp [okPair, h]

/-- Helper: in a good pair after whitespace there is neither whitespace nor
stop punctuation. -/
theorem okPair_spec (a b : Char) (h : okPair a b = true) (ha : isPySpace a = true) :
    isPySpace b = false ∧ isStopPunct b = false := by
  simp only [okPair, ha, Bool.true_and, Bool.not_eq_true', Bool.or_eq_false_iff] at h
  exact h

/-- Helper: bad-pair freedom restricts to the tail. -/
theorem noBadPairs_tail (c : Char) (cs : Str) (h : noBadPairs (c :: cs) = true) :
    noBadPairs cs = true := by
  cases cs with
  | nil => rfl
  | cons b t =>
    simp only [noBadPairs, Bool.and_eq_true] at h
    exact h.2

/-- Helper: the leading pair of a bad-pair-free string is good. -/
theorem noBadPairs_pair (a b : Char) (t : Str) (h : noBadPairs (a :: b :: t) = true) :
    okPair a b = true := by
  simp only [noBadPairs, Bool.and_eq_true] at h
  exact h.1

/-- Helper: prepending a non-whitespace character keeps bad-pair freedom. -/
theorem noBadPairs_cons_left (c : Char) (X : Str) (hc : isPySpace c = false)
    (hX : noBadPairs X = true) : noBadPairs (c :: X) = true := by
  cases X with
  | nil => rfl
  | cons b t =>
    simp only [noBadPairs, Bool.and_eq_true]
    exact ⟨okPair_of_nonspace c b hc, hX⟩

/-- Helper: space-pair freedom restricts to the tail. -/
theorem noSpacePair_tail (c : Char) (cs : Str) (h : noSpacePair (c :: cs) = true) :
    noSpacePair cs = true := by
  cases cs with
  | nil => rfl
  | cons b t =>
    simp only [noSpacePair, Bool.and_eq_true] at h
    exact h.2

/-- Helper: after a whitespace character of a space-pair-free string the next
character is not whitespace. -/
theorem noSpacePair_pair (a b : Char) (t : Str) (h : noSpacePair (a :: b :: t) = true)
    (ha : isPySpace a = true) : isPySpace b = false := by
  simp only [noSpacePair, Bool.and_eq_true, ha, Bool.true_and, Bool.not_eq_true'] at h
  exact h.1

/-- Helper: prepending a non-whitespace character keeps space-pair freedom. -/
theorem noSpacePair_cons_left (c : Char) (X : Str) (hc : isPySpace c = false)
    (hX : noSpacePair X = true) : noSpacePair (c :: X) = true := by
  cases X with
  | nil => rfl
  | cons b t =>
    simp only [noSpacePair, Bool.and_eq_true]
    exact ⟨by simp [hc], hX⟩

/-- Helper: bad-pair freedom implies space-pair freedom. -/
theorem noSpacePair_of_noBadPairs (t : Str) (h : noBadPairs t = true) :
    noSpacePair t = true := by
  induction t with
  | nil => rfl
  | cons a cs ih =>
    cases cs with
    | nil => rfl
    | cons b t2 =>
      have h2 := ih (noBadPairs_tail a (b :: t2) h)
      have hok := noBadPairs_pair a b t2 h
      simp only [noSpacePair, Bool.and_eq_true, h2, and_true]
      by_cases ha : isPySpace a = true
      · obtain ⟨hb, _⟩ := okPair_spec a b hok ha
        simp [ha, hb]
      · simp only [Bool.not_eq_true] at ha
        simp [ha]

/-- Helper: bad-pair freedom of an append gives bad-pair freedom of the left
part. -/
theorem noBadPairs_append_left (x : Str) :
    ∀ y : Str, noBadPairs (x ++ y) = true → noBadPairs x = true := by
  induction x with
  | nil => intro y h; rfl
  | cons a xs ih =>
    intro y h
    cases xs with
    | nil => rfl
    | cons b t2 =>
      simp only [List.cons_append] at h
      have h1 : okPair a b = true := noBadPairs_pair a b (t2 ++ y) h
      have h2 : noBadPairs ((b :: t2) ++ y) = true := by
        simpa only [List.cons_append] using noBadPairs_tail a (b :: t2 ++ y) h
      have h3 := ih y h2
      simp only [noBadPairs, Bool.and_eq_true]
      exact ⟨h1, h3⟩

/-- Helper: upper-casing a lower-case letter yields a non-lower-case, allowed,
non-whitespace good character. -/
theorem upChar_spec (c : Char) (h : isLowerC c = true) :
    isLowerC (upChar c) = false ∧ goodChar (upChar c) = true
    ∧ isPySpace (upChar c) = false := by
  rw [isLowerC, Option.isSome_iff_exists] at h
  obtain ⟨p, hp⟩ := h
  have hmem : p ∈ lowerUpperTable := List.mem_of_find?_eq_some hp
  have hup : upChar c = p.2 := by
    unfold upChar
    rw [hp]
  rw [hup]
  fin_cases hmem <;> exact ⟨by decide, by decide, by decide⟩

/-- Helper: one-step unfolding of whitespace collapsing on a cons cell. -/
theorem collapseWs_cons (c : Char) (cs : Str) :
    collapseWs (c :: cs)
      = if isPySpace c then
          (if isPySpace (cs.headD 'a') then collapseWs cs else ' ' :: collapseWs cs)
        else c :: collapseWs cs := by
  simp only [collapseWs]

/-- Helper: one-step unfolding of punctuation-space fixing on a cons cell. -/
theorem fixPunctSpace_cons (c : Char) (cs : Str) :
    fixPunctSpace (c :: cs)
      = if isPySpace c && isStopPunct ((cs.dropWhile isPySpace).headD 'a') then
          fixPunctSpace cs
        else c :: fixPunctSpace cs := by
  simp only [fixPunctSpace]

/-- Helper: whitespace collapsing is the identity on strings of good
characters without adjacent whitespace. -/
theorem collapseWs_id (t : Str) (hgood : t.all goodChar = true)
    (hpair : noSpacePair t = true) : collapseWs t = t := by
  induction t with
  | nil => rfl
  | cons c cs ih =>
    have hgc : goodChar c = true := by
      simp only [List.all_cons, Bool.and_eq_true] at hgood
      exact hgood.1
    have hgcs : cs.all goodChar = true := by
      simp only [List.all_cons, Bool.and_eq_true] at hgood
      exact hgood.2
    have hps : noSpacePair cs = true := noSpacePair_tail c cs hpair
    by_cases hc : isPySpace c = true
    · have hcsp : c = ' ' := goodChar_space c hgc hc
      cases cs with
      | nil =>
        rw [collapseWs_cons, if_pos hc, show (([] : Str).headD 'a') = 'a' from rfl,
          if_neg (by decide), hcsp]
        rfl
      | cons b t2 =>
        have hb : isPySpace b = false := noSpacePair_pair c b t2 hpair hc
        rw [collapseWs_cons, if_pos hc, List.headD_cons, if_neg (by simp [hb]),
          ih hgcs hps, hcsp]
    · have hcf : isPySpace c = false := by simpa using hc
      rw [collapseWs_cons, if_neg (by simp [hcf]), ih hgcs hps]

/-- Helper: punctuation-space fixing is the identity on bad-pair-free
strings. -/
theorem fixPunctSpace_id (t : Str) (h : noBadPairs t = true) :
    fixPunctSpace t = t := by
  induction t with
  | nil => rfl
  | cons c cs ih =>
    have ht := noBadPairs_tail c cs h
    by_cases hc : isPySpace c = true
    · cases cs with
      | nil =>
        rw [fixPunctSpace_cons,
          if_neg (by simp [show isStopPunct 'a' = false from rfl])]
        rfl
      | cons b t2 =>
        obtain ⟨hb1, hb2⟩ := okPair_spec c b (noBadPairs_pair c b t2 h) hc
        have hdw : (b :: t2).dropWhile isPySpace = b :: t2 :=
          dropWhile_id_of_headD isPySpace (b :: t2) 'a' (by simpa using hb1)
        rw [fixPunctSpace_cons, hdw, List.headD_cons, if_neg (by simp [hb2]), ih ht]
    · have hcf : isPySpace c = false := by simpa using hc
      rw [fixPunctSpace_cons, if_neg (by simp [hcf]), ih ht]

/-- Helper: capitalization is the identity when the first character is not a
lower-case letter. -/
theorem capitalizeFirst_id (t : Str) (h : isLowerC (t.headD 'A') = false) :
    capitalizeFirst t = t := by
  cases t with
  | nil => rfl
  | cons c cs =>
    simp only [List.headD_cons] at h
    simp [capitalizeFirst, h]

/-- Helper: stripping is the identity when neither end is whitespace. -/
theorem pyStrip_id (t : Str) (hh : isPySpace (t.headD 'a') = false)
    (hl : isPySpace (t.getLastD 'a') = false) : pyStrip t = t := by
  rw [pyStrip, dropWhile_id_of_headD isPySpace t 'a' hh,
    dropWhile_id_of_headD isPySpace t.reverse 'a' (by rw [headD_reverse]; exact hl),
    List.reverse_reverse]

/-- Helper: the normalizer is the identity on canonical strings: good
characters only, no bad pairs, no whitespace at either end, and no
lower-case first character. -/
theorem preprocess_id_of_canon (u : Str) (h1 : u.all goodChar = true)
    (h2 : noBadPairs u = true)
    (h3 : isPySpace (u.headD 'a') = false)
    (h4 : isLowerC (u.headD 'A') = false)
    (h5 : isPySpace (u.getLastD 'a') = false) :
    preprocess_text u = u := by
  rw [preprocess_text, collapseWs_id u h1 (noSpacePair_of_noBadPairs u h2),
    show filterAllowed u = u from
      List.filter_eq_self.mpr (fun c hc => goodChar_allowed c (by
        rw [List.all_eq_true] at h1
        exact h1 c hc)),
    fixPunctSpace_id u h2, capitalizeFirst_id u h4, pyStrip_id u h3 h5]

/-- Helper: collapsing whitespace of an allowed-character string yields only
good characters. -/
theorem collapseWs_all_goodChar (t : Str) (hall : t.all isAllowedChar = true) :
    (collapseWs t).all goodChar = true := by
  induction t with
  | nil => rfl
  | cons c cs ih =>
    have hc1 : isAllowedChar c = true := by
      simp only [List.all_cons, Bool.and_eq_true] at hall
      exact hall.1
    have hcs : cs.all isAllowedChar = true := by
      simp only [List.all_cons, Bool.and_eq_true] at hall
      exact hall.2
    rw [collapseWs_cons]
    by_cases hc : isPySpace c = true
    · rw [if_pos hc]
      by_cases hh : isPySpace (cs.headD 'a') = true
      · rw [if_pos hh]
        exact ih hcs
      · rw [if_neg hh]
        simp only [List.all_cons, Bool.and_eq_true]
        exact ⟨by decide, ih hcs⟩
    · rw [if_neg hc]
      have hcf : isPySpace c = false := by simpa using hc
      simp only [List.all_cons, Bool.and_eq_true]
      exact ⟨by simp [goodChar, hc1, hcf], ih hcs⟩

/-- Helper: collapsing whitespace leaves no two adjacent whitespace
characters. -/
theorem collapseWs_noSpacePair (t : Str) : noSpacePair (collapseWs t) = true := by
  induction t with
  | nil => rfl
  | cons c cs ih =>
    rw [collapseWs_cons]
    by_cases hc : isPySpace c = true
    · rw [if_pos hc]
      by_cases hh : isPySpace (cs.headD 'a') = true
      · rw [if_pos hh]
        exact ih
      · rw [if_neg hh]
        cases cs with
        | nil => rfl
        | cons b t2 =>
          have hb : isPySpace b = false := by simpa using hh
          have hcb : collapseWs (b :: t2) = b :: collapseWs t2 := by
            rw [collapseWs_cons, if_neg (by simp [hb])]
          rw [hcb]
          have ih2 : noSpacePair (b :: collapseWs t2) = true := by
            rw [← hcb]
            exact ih
          simp only [noSpacePair, Bool.and_eq_true]
          exact ⟨by simp [hb], ih2⟩
    · have hcf : isPySpace c = false := by simpa using hc
      rw [if_neg hc]
      exact noSpacePair_cons_left c (collapseWs cs) hcf ih

/-- Helper: collapsing whitespace keeps a non-whitespace first character. -/
theorem collapseWs_headD (t : Str) (h : isPySpace (t.headD 'a') = false) :
    (collapseWs t).headD 'a' = t.headD 'a' := by
  cases t with
  | nil => rfl
  | cons c cs =>
    simp only [List.headD_cons] at h
    rw [collapseWs_cons, if_neg (by simp [h])]
    rfl

/-- Helper: punctuation-space fixing only deletes characters, so membership
predicates survive it. -/
theorem fixPunctSpace_all (p : Char → Bool) (t : Str) (h : t.all p = true) :
    (fixPunctSpace t).all p = true := by
  induction t with
  | nil => rfl
  | cons c cs ih =>
    have h1 : p c = true := by
      simp only [List.all_cons, Bool.and_eq_true] at h
      exact h.1
    have h2 : cs.all p = true := by
      simp only [List.all_cons, Bool.and_eq_true] at h
      exact h.2
    rw [fixPunctSpace_cons]
    by_cases hcond : (isPySpace c && isStopPunct ((cs.dropWhile isPySpace).headD 'a')) = true
    · rw [if_pos hcond]
      exact ih h2
    · rw [if_neg hcond]
      simp only [List.all_cons, Bool.and_eq_true]
      exact ⟨h1, ih h2⟩

/-- Helper: punctuation-space fixing keeps a leading non-whitespace
character. -/
theorem fixPunct_cons_nonspace (b : Char) (t : Str) (hb : isPySpace b = false) :
    fixPunctSpace (b :: t) = b :: fixPunctSpace t := by
  rw [fixPunctSpace_cons, if_neg (by simp [hb])]

/-- Helper: on space-pair-free input, punctuation-space fixing leaves no bad
pairs at all. -/
theorem fixPunctSpace_noBadPairs (t : Str) (hs : noSpacePair t = true) :
    noBadPairs (fixPunctSpace t) = true := by
  induction t with
  | nil => rfl
  | cons c cs ih =>
    have ht := noSpacePair_tail c cs hs
    by_cases hc : isPySpace c = true
    · cases cs with
      | nil =>
        rw [fixPunctSpace_cons,
          if_neg (by simp [show isStopPunct 'a' = false from rfl])]
        rfl
      | cons b t2 =>
        have hb : isPySpace b = false := noSpacePair_pair c b t2 hs hc
        have hdw : (b :: t2).dropWhile isPySpace = b :: t2 :=
          dropWhile_id_of_headD isPySpace (b :: t2) 'a' (by simpa using hb)
        by_cases hpb : isStopPunct b = true
        · rw [fixPunctSpace_cons, hdw, List.headD_cons, if_pos (by simp [hc, hpb])]
          exact ih ht
        · have hpbf : isStopPunct b = false := by simpa using hpb
          rw [fixPunctSpace_cons, hdw, List.headD_cons, if_neg (by simp [hpbf]),
            fixPunct_cons_nonspace b t2 hb]
          have ih2 : noBadPairs (b :: fixPunctSpace t2) = true := by
            rw [← fixPunct_cons_nonspace b t2 hb]
            exact ih ht
          simp only [noBadPairs, Bool.and_eq_true]
          exact ⟨by simp [okPair, hb, hpbf], ih2⟩
    · have hcf : isPySpace c = false := by simpa using hc
      rw [fixPunctSpace_cons, if_neg (by simp [hcf])]
      exact noBadPairs_cons_left c (fixPunctSpace cs) hcf (ih ht)

/-- Helper: punctuation-space fixing keeps a non-whitespace first
character. -/
theorem fixPunct_headD (t : Str) (h : isPySpace (t.headD 'a') = false) :
    (fixPunctSpace t).headD 'a' = t.headD 'a' := by
  cases t with
  | nil => rfl
  | cons c cs =>
    simp only [List.headD_cons] at h
    rw [fixPunct_cons_nonspace c cs h]
    rfl

/-- Helper: capitalization keeps all characters good. -/
theorem capitalizeFirst_all (t : Str) (h : t.all goodChar = true) :
    (capitalizeFirst t).all goodChar = true := by
  cases t with
  | nil => rfl
  | cons c cs =>
    have h2 : cs.all goodChar = true := by
      simp only [List.all_cons, Bool.and_eq_true] at h
      exact h.2
    by_cases hl : isLowerC c = true
    · simp only [capitalizeFirst, hl, if_true, List.all_cons, Bool.and_eq_true]
      exact ⟨(upChar_spec c hl).2.1, h2⟩
    · simpa [capitalizeFirst, hl] using h

/-- Helper: capitalization keeps bad-pair freedom. -/
theorem capitalizeFirst_noBadPairs (t : Str) (h : noBadPairs t = true) :
    noBadPairs (capitalizeFirst t) = true := by
  cases t with
  | nil => rfl
  | cons c cs =>
    by_cases hl : isLowerC c = true
    · simp only [capitalizeFirst, hl, if_true]
      exact noBadPairs_cons_left (upChar c) cs (upChar_spec c hl).2.2
        (noBadPairs_tail c cs h)
    · simpa [capitalizeFirst, hl] using h

/-- Helper: capitalization keeps a non-whitespace first character. -/
theorem capitalizeFirst_headD_nonspace (t : Str)
    (h : isPySpace (t.headD 'a') = false) :
    isPySpace ((capitalizeFirst t).headD 'a') = false := by
  cases t with
  | nil => simpa using h
  | cons c cs =>
    simp only [List.headD_cons] at h
    by_cases hl : isLowerC c = true
    · simp only [capitalizeFirst, hl, if_true, List.headD_cons]
      exact (upChar_spec c hl).2.2
    · simpa [capitalizeFirst, hl] using h

/-- Helper: after capitalization the first character is never lower case. -/
theorem capitalizeFirst_headD_nonlower (t : Str) :
    isLowerC ((capitalizeFirst t).headD 'A') = false := by
  cases t with
  | nil => decide
  | cons c cs =>
    by_cases hl : isLowerC c = true
    · simp only [capitalizeFirst, hl, if_true, List.headD_cons]
      exact (upChar_spec c hl).1
    · simp only [capitalizeFirst, hl, if_false, List.headD_cons]
      simpa using hl

/-- Helper: the default last element of a reversed list is its default
head. -/
theorem getLastD_reverse (l : Str) (d : Char) : l.reverse.getLastD d = l.headD d := by
  have h := headD_reverse l.reverse d
  rw [List.reverse_reverse] at h
  exact h.symm

/-- Helper: when dropWhile leaves something, its first element fails the
test. -/
theorem headD_dropWhile_false (p : Char → Bool) (l : Str) (d : Char)
    (h : l.dropWhile p ≠ []) : p ((l.dropWhile p).headD d) = false := by
  induction l with
  | nil => simp at h
  | cons c cs ih =>
    by_cases hc : p c = true
    · rw [List.dropWhile_cons, if_pos hc] at h ⊢
      exact ih h
    · have hcf : p c = false := by simpa using hc
      rw [List.dropWhile_cons, if_neg (by simp [hcf]), List.headD_cons]
      exact hcf

/-- Helper: stripping preserves the canonical invariants and establishes a
non-whitespace last character. -/
theorem pyStrip_canon (u : Str) (h1 : u.all goodChar = true)
    (h2 : noBadPairs u = true)
    (h3 : isPySpace (u.headD 'a') = false)
    (h4 : isLowerC (u.headD 'A') = false) :
    (pyStrip u).all goodChar = true
    ∧ noBadPairs (pyStrip u) = true
    ∧ isPySpace ((pyStrip u).headD 'a') = false
    ∧ isLowerC ((pyStrip u).headD 'A') = false
    ∧ isPySpace ((pyStrip u).getLastD 'a') = false := by
  have hds : pyStrip u = (u.reverse.dropWhile isPySpace).reverse := by
    rw [pyStrip, dropWhile_id_of_headD isPySpace u 'a' h3]
  by_cases hnil : u.reverse.dropWhile isPySpace = []
  · rw [hds, hnil]
    exact ⟨rfl, rfl, by decide, by decide, by decide⟩
  · obtain ⟨r, hr⟩ := List.dropWhile_suffix (l := u.reverse) isPySpace
    have hu : u = (u.reverse.dropWhile isPySpace).reverse ++ r.reverse := by
      have hrev : (r ++ u.reverse.dropWhile isPySpace).reverse = u.reverse.reverse := by
        rw [hr]
      rw [List.reverse_append, List.reverse_reverse] at hrev
      exact hrev.symm
    have hvne : (u.reverse.dropWhile isPySpace).reverse ≠ [] := by
      simpa using hnil
    have hhd : ∀ d : Char, ((u.reverse.dropWhile isPySpace).reverse).headD d = u.headD d := by
      intro d
      conv_rhs => rw [hu]
      exact (headD_append_left _ r.reverse d hvne).symm
    have hall : ((u.reverse.dropWhile isPySpace).reverse).all goodChar = true := by
      have h1b : ((u.reverse.dropWhile isPySpace).reverse ++ r.reverse).all goodChar = true := by
        rw [← hu]
        exact h1
      simp only [List.all_append, Bool.and_eq_true] at h1b
      exact h1b.1
    have hnbp : noBadPairs ((u.reverse.dropWhile isPySpace).reverse) = true := by
      apply noBadPairs_append_left _ r.reverse
      rw [← hu]
      exact h2
    have hlast : isPySpace (((u.reverse.dropWhile isPySpace).reverse).getLastD 'a') = false := by
      rw [getLastD_reverse]
      exact headD_dropWhile_false isPySpace u.reverse 'a' hnil
    rw [hds]
    exact ⟨hall, hnbp, by rw [hhd 'a']; exact h3, by rw [hhd 'A']; exact h4, hlast⟩

/-- Helper: on inputs made of allowed characters with no leading whitespace,
the normalizer output is canonical. -/
theorem preprocess_canon (t : Str) (hall : t.all isAllowedChar = true)
    (hh : isPySpace (t.headD 'a') = false) :
    (preprocess_text t).all goodChar = true
    ∧ noBadPairs (preprocess_text t) = true
    ∧ isPySpace ((preprocess_text t).headD 'a') = false
    ∧ isLowerC ((preprocess_text t).headD 'A') = false
    ∧ isPySpace ((preprocess_text t).getLastD 'a') = false := by
  have h1a : (collapseWs t).all goodChar = true := collapseWs_all_goodChar t hall
  have h1s : noSpacePair (collapseWs t) = true := collapseWs_noSpacePair t
  have h1h : isPySpace ((collapseWs t).headD 'a') = false := by
    rw [collapseWs_headD t hh]
    exact hh
  have hfil : filterAllowed (collapseWs t) = collapseWs t :=
    List.filter_eq_self.mpr (fun c hc => goodChar_allowed c
      (List.all_eq_true.mp h1a c hc))
  have h2a : (fixPunctSpace (collapseWs t)).all goodChar = true :=
    fixPunctSpace_all goodChar (collapseWs t) h1a
  have h2b : noBadPairs (fixPunctSpace (collapseWs t)) = true :=
    fixPunctSpace_noBadPairs (collapseWs t) h1s
  have h2h : isPySpace ((fixPunctSpace (collapseWs t)).headD 'a') = false := by
    rw [fixPunct_headD (collapseWs t) h1h]
    exact h1h
  have h3a : (capitalizeFirst (fixPunctSpace (collapseWs t))).all goodChar = true :=
    capitalizeFirst_all (fixPunctSpace (collapseWs t)) h2a
  have h3b : noBadPairs (capitalizeFirst (fixPunctSpace (collapseWs t))) = true :=
    capitalizeFirst_noBadPairs (fixPunctSpace (collapseWs t)) h2b
  have h3h : isPySpace ((capitalizeFirst (fixPunctSpace (collapseWs t))).headD 'a') = false :=
    capitalizeFirst_headD_nonspace (fixPunctSpace (collapseWs t)) h2h
  have h3l : isLowerC ((capitalizeFirst (fixPunctSpace (collapseWs t))).headD 'A') = false :=
    capitalizeFirst_headD_nonlower (fixPunctSpace (collapseWs t))
  have hpre : preprocess_text t
      = pyStrip (capitalizeFirst (fixPunctSpace (collapseWs t))) := by
    rw [preprocess_text, hfil]
  rw [hpre]
  exact pyStrip_canon (capitalizeFirst (fixPunctSpace (collapseWs t))) h3a h3b h3h h3l

/-- C7 (amended): the normalizer is idempotent on every text built from its
allowed character set whose first character is not whitespace; on texts with
stripped characters or leading whitespace a second application can differ. -/
theorem normalize_idempotent_on_clean (t : Str)
    (hall : t.all isAllowedChar = true)
    (hh : isPySpace (t.headD 'a') = false) :
    preprocess_text (preprocess_text t) = preprocess_text t := by
  obtain ⟨h1, h2, h3, h4, h5⟩ := preprocess_canon t hall hh
  exact preprocess_id_of_canon (preprocess_text t) h1 h2 h3 h4 h5

/-- C7 counterexample: stripping the disallowed dollar sign out of
"a $ b" leaves the double space "A  b", which a second normalization pass
collapses to "A b", so normalize(normalize(t)) differs from normalize(t). -/
theorem normalize_not_idempotent :
    preprocess_text (preprocess_text ['a', ' ', '$', ' ', 'b'])
      ≠ preprocess_text ['a', ' ', '$', ' ', 'b'] := by decide

/-- Witness for C7 on a clean text that still exercises whitespace collapse,
punctuation spacing and stripping. -/
theorem normalize_idempotent_witness :
    ((['H', 'i', ' ', ' ', 'a', ' ', '.'] : Str).all isAllowedChar = true)
    ∧ isPySpace ((['H', 'i', ' ', ' ', 'a', ' ', '.'] : Str).headD 'a') = false
    ∧ preprocess_text (preprocess_text ['H', 'i', ' ', ' ', 'a', ' ', '.'])
        = preprocess_text ['H', 'i', ' ', ' ', 'a', ' ', '.'] :=
  ⟨by decide, by decide,
    normalize_idempotent_on_clean ['H', 'i', ' ', ' ', 'a', ' ', '.']
      (by decide) (by decide)⟩
